import Mathlib

/-!
Verification of the tallybot core: the standard labeling scheme
(`src/labelingscheme.py`) and the tally engine (`src/tallybot.py`),
shallowly embedded in Lean.  Instants (Python `datetime` values) are
modelled as integer seconds; `timedelta(days = n)` is `86400 * n` seconds
and `timedelta(hours = h)` is `3600 * h` seconds.
-/

namespace Tallybot

/-! ### Calendar instants

Python `datetime` values are modelled as seconds since the Unix epoch.
`epochSeconds y m d hh` is the instant of hour `hh` on the Gregorian date
`y-m-d` (proleptic, as Python's `datetime` uses). -/

def isLeap (y : Nat) : Bool :=
  (y % 4 == 0 && y % 100 != 0) || (y % 400 == 0)

def daysInMonth (y m : Nat) : Nat :=
  if m = 2 then (if isLeap y then 29 else 28)
  else if m = 4 ∨ m = 6 ∨ m = 9 ∨ m = 11 then 30
  else 31

def daysSinceEpoch (y m d : Nat) : Nat :=
  ((List.range (y - 1970)).map (fun i => if isLeap (1970 + i) then 366 else 365)).sum
    + ((List.range (m - 1)).map (fun i => daysInMonth y (i + 1))).sum
    + (d - 1)

def epochSeconds (y m d hh : Nat) : Int :=
  ((86400 * daysSinceEpoch y m d + 3600 * hh : Nat) : Int)

/-! ### Labels (`labelingscheme.py`, class `StandardLabel`)

A `StandardLabel` carries the full label string, the parsed week number
and the weekday index (0 = mon .. 4 = fri), exactly the `_label`, `_week`
and `_day` fields of the Python class. -/

structure StandardLabel where
  label : String
  week : Nat
  day : Nat
deriving DecidableEq

/-! ### Scheme configuration (`StandardLabelingScheme.__init__`)

The constructor combines `start_date` (midnight, as epoch seconds) with
`due_time` hours into the single stored instant `_start`; the remaining
configuration fields are stored as given. -/

structure SchemeConfig where
  start : Int
  max_week : Nat
  due_days : List String
  exceptions : List String
  gaps : List Int
deriving DecidableEq

def schemeInit (start_date : Int) (due_time : Nat) (max_week : Nat)
    (due_days exceptions : List String) (gaps : List Int) : SchemeConfig :=
  { start := start_date + 3600 * (due_time : Int)
    max_week := max_week
    due_days := due_days
    exceptions := exceptions
    gaps := gaps }

/-! ### Label grammar (`regex = r"w(\d+)(mon|tue|wed|thu|fri)"`)

The regex search of `topic_match` is embedded directly: `matchHere`
attempts the bracketed pattern `[w<digits><weekday>]` at the head of a
character list, and `searchTopic` scans positions left to right, exactly
the leftmost-match semantics of `re.search`.  The digit group `\d+` is
greedy, and since no weekday abbreviation starts with a digit the matched
digit group is always the maximal digit run. -/

def natOfDigits (l : List Char) : Nat :=
  l.foldl (fun n c => 10 * n + (c.toNat - 48)) 0

def readWeekday : List Char → Option (String × List Char)
  | 'm' :: 'o' :: 'n' :: rest => some ("mon", rest)
  | 't' :: 'u' :: 'e' :: rest => some ("tue", rest)
  | 't' :: 'h' :: 'u' :: rest => some ("thu", rest)
  | 'w' :: 'e' :: 'd' :: rest => some ("wed", rest)
  | 'f' :: 'r' :: 'i' :: rest => some ("fri", rest)
  | _ => none

def matchHere (l : List Char) : Option (String × String × String) :=
  match l with
  | '[' :: 'w' :: rest =>
    match rest.takeWhile Char.isDigit with
    | [] => none
    | ds =>
      match readWeekday (rest.dropWhile Char.isDigit) with
      | none => none
      | some (c, rest2) =>
        match rest2 with
        | ']' :: _ => some ("w" ++ String.mk ds ++ c, String.mk ds, c)
        | _ => none
  | _ => none

def searchTopic : List Char → Option (String × String × String)
  | [] => none
  | c :: rest =>
    match matchHere (c :: rest) with
    | some t => some t
    | none => searchTopic rest

/-! ### Label creation (`StandardLabelingScheme._create_label`)

The three exclusion checks run in source order: exception list, maximum
week, allowed due-days; then the weekday abbreviation is converted to an
index via the `days_of_week` table. -/

def days_of_week (c : String) : Option Nat :=
  if c = "mon" then some 0
  else if c = "tue" then some 1
  else if c = "wed" then some 2
  else if c = "thu" then some 3
  else if c = "fri" then some 4
  else none

def create_label (cfg : SchemeConfig) (a b c : String) : Option StandardLabel :=
  if a ∈ cfg.exceptions then none
  else if natOfDigits b.data > cfg.max_week then none
  else if c ∉ cfg.due_days then none
  else (days_of_week c).map (fun d => { label := a, week := natOfDigits b.data, day := d })

/-! ### Topic matching (`StandardLabelingScheme.topic_match`) -/

def topic_match (cfg : SchemeConfig) (topic : String) : Option StandardLabel :=
  match searchTopic topic.data with
  | none => none
  | some (a, b, c) => create_label cfg a b c

/-! ### Deadlines (`StandardLabelingScheme._deadline`)

The gap loop is the direct embedding of
`for g in self._gaps: if week >= g: week += 1`; the deadline adds
`timedelta(days = 7*(week-1) + day)` to the stored start instant. -/

def gapLoop : List Int → Int → Int
  | [], week => week
  | g :: gs, week => gapLoop gs (if week ≥ g then week + 1 else week)

def deadline (cfg : SchemeConfig) (l : StandardLabel) : Int :=
  cfg.start + 86400 * (7 * (gapLoop cfg.gaps (l.week : Int) - 1) + (l.day : Int))

/-! ### Event ingestion (`tallybot.py`, `get_messages`)

A raw platform message carries the sender, subject, timestamp and
reaction list; ingestion drops bot and staff messages and messages whose
topic has no label, and otherwise records the label string together with
the derived `on_time` and `valid` flags.  User roles are supplied as a
lookup function from user id to role level; Zulip role levels at or below
300 are staff (moderators and above). -/

structure Reaction where
  emoji_name : String
  user_id : Nat
deriving DecidableEq

structure RawMsg where
  id : Nat
  sender_id : Nat
  sender_full_name : String
  subject : String
  content : String
  timestamp : Int
  reactions : List Reaction
deriving DecidableEq

structure Msg where
  id : Nat
  sender_id : Nat
  label : String
  content : String
  timestamp : Int
  on_time : Bool
  valid : Bool
deriving DecidableEq

/-- Embedding of the reaction loop of `get_messages`: `valid` starts true
and becomes false at the first reaction whose emoji is the configured
`invalid_emoji` and whose reactor's role is at most 300. -/
def computeValid (roleOf : Nat → Nat) (invalid_emoji : String) : List Reaction → Bool
  | [] => true
  | r :: rest =>
    if r.emoji_name = invalid_emoji then
      if roleOf r.user_id ≤ 300 then false
      else computeValid roleOf invalid_emoji rest
    else computeValid roleOf invalid_emoji rest

/-- Embedding of the per-message body of `get_messages`: drop notification
bot messages, drop staff senders (role at most 300), drop messages whose
topic has no label match, and otherwise build the ingested event with
`on_time = (timestamp <= label.deadline())` and the reaction-derived
`valid` flag. -/
def processMessage (cfg : SchemeConfig) (roleOf : Nat → Nat)
    (invalid_emoji : String) (m : RawMsg) : Option Msg :=
  if m.sender_full_name = "Notification Bot" then none
  else if roleOf m.sender_id ≤ 300 then none
  else
    match topic_match cfg m.subject with
    | none => none
    | some label =>
      some { id := m.id
             sender_id := m.sender_id
             label := label.label
             content := m.content
             timestamp := m.timestamp
             on_time := decide (m.timestamp ≤ deadline cfg label)
             valid := computeValid roleOf invalid_emoji m.reactions }

/-! ### Tallying (`tallybot.py`, `do_tally`)

Python dicts are modelled as association lists with dict semantics:
assignment to an existing key updates it in place, assignment to a fresh
key appends it.  `initialTally` is the first loop of `do_tally` (the OR
accumulation per `(sender, label)` pair) and `do_tally` consolidates each
sender's inner dict into the `credit` / `no_credit` lists. -/

def alookup {α : Type} [DecidableEq α] {β : Type} : List (α × β) → α → Option β
  | [], _ => none
  | (k, v) :: rest, x => if k = x then some v else alookup rest x

/-- Dict update `inner[a] = inner.get(a, False) or q` on a label dict. -/
def orInsert : List (String × Bool) → String → Bool → List (String × Bool)
  | [], a, q => [(a, q)]
  | (k, v) :: rest, a, q =>
    if k = a then (k, v || q) :: rest else (k, v) :: orInsert rest a q

/-- Dict update on the outer sender dict: create the sender's inner dict
if absent, then apply `orInsert` to it. -/
def senderUpdate : List (Nat × List (String × Bool)) → Nat → String → Bool →
    List (Nat × List (String × Bool))
  | [], x, a, q => [(x, [(a, q)])]
  | (k, inner) :: rest, x, a, q =>
    if k = x then (k, orInsert inner a q) :: rest
    else (k, inner) :: senderUpdate rest x a q

def tallyStep (acc : List (Nat × List (String × Bool))) (m : Msg) :
    List (Nat × List (String × Bool)) :=
  senderUpdate acc m.sender_id m.label (m.on_time && m.valid)

def initialTally (msgs : List Msg) : List (Nat × List (String × Bool)) :=
  msgs.foldl tallyStep []

structure Tally where
  credit : List String
  no_credit : List String
deriving DecidableEq

def consolidate (inner : List (String × Bool)) : Tally :=
  { credit := (inner.filter (fun p => p.2)).map (fun p => p.1)
    no_credit := (inner.filter (fun p => !p.2)).map (fun p => p.1) }

def do_tally (msgs : List Msg) : List (Nat × Tally) :=
  (initialTally msgs).map (fun p => (p.1, consolidate p.2))

/-- Lookup with the default used by `individual_count`:
`tally.get(x, \x7b"credit": [], "no_credit": []\x7d)`. -/
def tallyOf (t : List (Nat × Tally)) (x : Nat) : Tally :=
  (alookup t x).getD ⟨[], []⟩

/-! ### Derived notions used to state the claims -/

/-- The effective week actually computed by `_deadline`, written as a
fold: the running week value is incremented once for every gap it has
reached, with gaps processed in list order. -/
def effectiveWeek (gaps : List Int) (week : Int) : Int :=
  gaps.foldl (fun v g => if g ≤ v then v + 1 else v) week

/-- Modelled from the spec's words, for comparison with the code: the
effective week as the raw week number plus the number of gap values that
are at most the raw week number. -/
def effectiveWeekClaimed (gaps : List Int) (week : Int) : Int :=
  week + ((gaps.filter (fun g => g ≤ week)).length : Int)

/-- The value of the per-pair lookup `initial[x][a]` in an accumulator of
`do_tally`'s first loop (`none` when the pair is absent). -/
def pairVal (acc : List (Nat × List (String × Bool))) (x : Nat) (a : String) :
    Option Bool :=
  alookup ((alookup acc x).getD []) a

/-- Whether some event of the list belongs to the `(sender, label)` pair. -/
def pairOccurs (msgs : List Msg) (x : Nat) (a : String) : Bool :=
  msgs.any (fun m => decide (m.sender_id = x) && decide (m.label = a))

/-- Whether some event of the `(sender, label)` pair is on time and valid. -/
def pairQual (msgs : List Msg) (x : Nat) (a : String) : Bool :=
  msgs.any (fun m => decide (m.sender_id = x) && decide (m.label = a)
    && (m.on_time && m.valid))

/-- The end-to-end scenario configuration of the spec: term starting
2023-01-02, due hour 23, ten weeks, due-days mon/wed/fri, a gap at
calendar week 3 and no exceptions. -/
def cfg5 : SchemeConfig :=
  schemeInit (epochSeconds 2023 1 2 0) 23 10 ["mon", "wed", "fri"] [] [3]

/-- A role lookup making every user a regular member (Zulip role 400). -/
def roleStudent : Nat → Nat := fun _ => 400

/-! ## Helper lemmas about the deadline computation -/

theorem gapLoop_eq_effectiveWeek (gs : List Int) : ∀ w : Int, gapLoop gs w = effectiveWeek gs w := by
  induction gs with
  | nil => intro w; rfl
  | cons g gs ih =>
    intro w
    simp only [gapLoop, effectiveWeek, List.foldl_cons] at *
    rw [ih]

theorem gapLoop_lt (gs : List Int) : ∀ v w : Int, v < w → gapLoop gs v < gapLoop gs w := by
  induction gs with
  | nil => intro v w h; exact h
  | cons g gs ih =>
    intro v w h
    simp only [gapLoop]
    apply ih
    by_cases h1 : v ≥ g <;> by_cases h2 : w ≥ g <;> simp [h1, h2] <;> omega

/-! ## Helper lemmas about association lists -/

theorem alookup_eq_some_mem {α β : Type} [DecidableEq α] (l : List (α × β)) (k : α) (v : β)
    (h : alookup l k = some v) : (k, v) ∈ l := by
  induction l with
  | nil => simp [alookup] at h
  | cons p rest ih =>
    obtain ⟨k', v'⟩ := p
    by_cases hk : k' = k
    · subst hk
      simp [alookup] at h
      simp [h]
    · simp only [alookup, if_neg hk] at h
      exact List.mem_cons_of_mem _ (ih h)

theorem mem_alookup_of_nodup {α β : Type} [DecidableEq α] (l : List (α × β)) (k : α) (v : β)
    (hnd : (l.map Prod.fst).Nodup) (h : (k, v) ∈ l) : alookup l k = some v := by
  induction l with
  | nil => simp at h
  | cons p rest ih =>
    obtain ⟨k', v'⟩ := p
    have hnd2 : (k' :: rest.map Prod.fst).Nodup := by simpa using hnd
    rcases List.mem_cons.mp h with h1 | h1
    · cases h1
      simp [alookup]
    · have hk : k' ≠ k := by
        intro e
        apply (List.nodup_cons.mp hnd2).1
        rw [e]
        exact List.mem_map_of_mem Prod.fst h1
      simp only [alookup, if_neg hk]
      exact ih (List.nodup_cons.mp hnd2).2 h1

theorem alookup_isSome_iff_mem {α β : Type} [DecidableEq α] (l : List (α × β)) (k : α) :
    (alookup l k).isSome ↔ k ∈ l.map Prod.fst := by
  induction l with
  | nil => simp [alookup]
  | cons p rest ih =>
    obtain ⟨k', v'⟩ := p
    by_cases hk : k' = k
    · subst hk; simp [alookup]
    · simp [alookup, hk, ih, Ne.symm hk]

theorem alookup_orInsert_self (l : List (String × Bool)) (a : String) (q : Bool) :
    alookup (orInsert l a q) a = some ((alookup l a).getD false || q) := by
  induction l with
  | nil => simp [orInsert, alookup]
  | cons p rest ih =>
    obtain ⟨k, v⟩ := p
    by_cases h : k = a
    · subst h; simp [orInsert, alookup]
    · simp [orInsert, alookup, h, ih]

theorem alookup_orInsert_ne (l : List (String × Bool)) (a a' : String) (q : Bool)
    (h : a' ≠ a) : alookup (orInsert l a q) a' = alookup l a' := by
  induction l with
  | nil => simp [orInsert, alookup, Ne.symm h]
  | cons p rest ih =>
    obtain ⟨k, v⟩ := p
    by_cases hk : k = a
    · subst hk; simp [orInsert, alookup, Ne.symm h]
    · by_cases hk' : k = a'
      · subst hk'; simp [orInsert, alookup, hk]
      · simp [orInsert, alookup, hk, hk', ih]

theorem orInsert_keys (l : List (String × Bool)) (a : String) (q : Bool) :
    (orInsert l a q).map Prod.fst =
      if a ∈ l.map Prod.fst then l.map Prod.fst else l.map Prod.fst ++ [a] := by
  induction l with
  | nil => simp [orInsert]
  | cons p rest ih =>
    obtain ⟨k, v⟩ := p
    by_cases h : k = a
    · subst h; simp [orInsert]
    · by_cases h2 : a ∈ rest.map Prod.fst <;>
        simp [orInsert, h, h2, ih, Ne.symm h]

theorem orInsert_keys_nodup (l : List (String × Bool)) (a : String) (q : Bool)
    (h : (l.map Prod.fst).Nodup) : ((orInsert l a q).map Prod.fst).Nodup := by
  rw [orInsert_keys]
  by_cases h2 : a ∈ l.map Prod.fst
  · simpa [h2] using h
  · simp only [if_neg h2, List.nodup_append]
    exact ⟨h, List.nodup_singleton a, by simpa [List.disjoint_singleton] using h2⟩

theorem alookup_senderUpdate_self (acc : List (Nat × List (String × Bool)))
    (x : Nat) (a : String) (q : Bool) :
    alookup (senderUpdate acc x a q) x = some (orInsert ((alookup acc x).getD []) a q) := by
  induction acc with
  | nil => simp [senderUpdate, alookup, orInsert]
  | cons p rest ih =>
    obtain ⟨k, inner⟩ := p
    by_cases h : k = x
    · subst h; simp [senderUpdate, alookup]
    · simp [senderUpdate, alookup, h, ih]

theorem alookup_senderUpdate_ne (acc : List (Nat × List (String × Bool)))
    (x x' : Nat) (a : String) (q : Bool) (h : x' ≠ x) :
    alookup (senderUpdate acc x a q) x' = alookup acc x' := by
  induction acc with
  | nil => simp [senderUpdate, alookup, Ne.symm h]
  | cons p rest ih =>
    obtain ⟨k, inner⟩ := p
    by_cases hk : k = x
    · subst hk; simp [senderUpdate, alookup, Ne.symm h]
    · by_cases hk' : k = x'
      · subst hk'; simp [senderUpdate, alookup, hk]
      · simp [senderUpdate, alookup, hk, hk', ih]

theorem senderUpdate_keys (acc : List (Nat × List (String × Bool)))
    (x : Nat) (a : String) (q : Bool) :
    (senderUpdate acc x a q).map Prod.fst =
      if x ∈ acc.map Prod.fst then acc.map Prod.fst else acc.map Prod.fst ++ [x] := by
  induction acc with
  | nil => simp [senderUpdate]
  | cons p rest ih =>
    obtain ⟨k, inner⟩ := p
    by_cases h : k = x
    · subst h; simp [senderUpdate]
    · by_cases h2 : x ∈ rest.map Prod.fst <;>
        simp [senderUpdate, h, h2, ih, Ne.symm h]

theorem senderUpdate_keys_nodup (acc : List (Nat × List (String × Bool)))
    (x : Nat) (a : String) (q : Bool) (h : (acc.map Prod.fst).Nodup) :
    ((senderUpdate acc x a q).map Prod.fst).Nodup := by
  rw [senderUpdate_keys]
  by_cases h2 : x ∈ acc.map Prod.fst
  · simpa [h2] using h
  · simp only [if_neg h2, List.nodup_append]
    exact ⟨h, List.nodup_singleton x, by simpa [List.disjoint_singleton] using h2⟩

theorem senderUpdate_inner_nodup (acc : List (Nat × List (String × Bool)))
    (x : Nat) (a : String) (q : Bool)
    (h : ∀ p ∈ acc, (p.2.map Prod.fst).Nodup) :
    ∀ p ∈ senderUpdate acc x a q, (p.2.map Prod.fst).Nodup := by
  induction acc with
  | nil =>
    intro p hp
    simp [senderUpdate] at hp
    simp [hp]
  | cons hd rest ih =>
    obtain ⟨k, inner⟩ := hd
    intro p hp
    by_cases hk : k = x
    · subst hk
      simp only [senderUpdate, if_pos rfl] at hp
      rcases List.mem_cons.mp hp with h1 | h1
      · subst h1
        exact orInsert_keys_nodup inner a q (h (k, inner) (List.mem_cons_self _ _))
      · exact h p (List.mem_cons_of_mem _ h1)
    · simp only [senderUpdate, if_neg hk] at hp
      rcases List.mem_cons.mp hp with h1 | h1
      · subst h1
        exact h (k, inner) (List.mem_cons_self _ _)
      · exact ih (fun r hr => h r (List.mem_cons_of_mem _ hr)) p h1

/-! ## Helper lemmas about the tally accumulation -/

theorem pairVal_tallyStep_self (acc : List (Nat × List (String × Bool))) (m : Msg) :
    pairVal (tallyStep acc m) m.sender_id m.label =
      some ((pairVal acc m.sender_id m.label).getD false || (m.on_time && m.valid)) := by
  unfold pairVal tallyStep
  rw [alookup_senderUpdate_self]
  simp only [Option.getD_some]
  exact alookup_orInsert_self _ _ _

theorem pairVal_tallyStep_ne (acc : List (Nat × List (String × Bool))) (m : Msg)
    (x : Nat) (a : String) (h : ¬(m.sender_id = x ∧ m.label = a)) :
    pairVal (tallyStep acc m) x a = pairVal acc x a := by
  unfold pairVal tallyStep
  by_cases hx : m.sender_id = x
  · subst hx
    have ha : m.label ≠ a := fun e => h ⟨rfl, e⟩
    rw [alookup_senderUpdate_self]
    simp only [Option.getD_some]
    exact alookup_orInsert_ne _ _ _ _ (Ne.symm ha)
  · rw [alookup_senderUpdate_ne acc m.sender_id x m.label (m.on_time && m.valid)
      (fun e => hx e.symm)]

theorem pairQual_imp_pairOccurs (msgs : List Msg) (x : Nat) (a : String)
    (h : pairQual msgs x a = true) : pairOccurs msgs x a = true := by
  simp only [pairQual, pairOccurs, List.any_eq_true, Bool.and_eq_true,
    decide_eq_true_eq] at *
  obtain ⟨m, hm, ⟨h1, h2⟩, h3⟩ := h
  exact ⟨m, hm, h1, h2⟩

theorem pairOccurs_iff (msgs : List Msg) (x : Nat) (a : String) :
    pairOccurs msgs x a = true ↔ ∃ m ∈ msgs, m.sender_id = x ∧ m.label = a := by
  simp [pairOccurs, List.any_eq_true, Bool.and_eq_true, decide_eq_true_eq]

theorem pairQual_iff (msgs : List Msg) (x : Nat) (a : String) :
    pairQual msgs x a = true ↔
      ∃ m ∈ msgs, m.sender_id = x ∧ m.label = a ∧ m.on_time = true ∧ m.valid = true := by
  simp [pairQual, List.any_eq_true, Bool.and_eq_true, decide_eq_true_eq, and_assoc]

theorem pairVal_foldl (msgs : List Msg) :
    ∀ (acc : List (Nat × List (String × Bool))) (x : Nat) (a : String),
      pairVal (msgs.foldl tallyStep acc) x a =
        if pairOccurs msgs x a then
          some ((pairVal acc x a).getD false || pairQual msgs x a)
        else pairVal acc x a := by
  induction msgs with
  | nil => intro acc x a; simp [pairOccurs]
  | cons m rest ih =>
    intro acc x a
    rw [List.foldl_cons, ih]
    by_cases hm : m.sender_id = x ∧ m.label = a
    · obtain ⟨h1, h2⟩ := hm
      subst h1
      subst h2
      have hocc : pairOccurs (m :: rest) m.sender_id m.label = true := by
        simp [pairOccurs, List.any_cons]
      have hq : pairQual (m :: rest) m.sender_id m.label =
          ((m.on_time && m.valid) || pairQual rest m.sender_id m.label) := by
        simp [pairQual, List.any_cons]
      rw [hocc, hq, pairVal_tallyStep_self]
      cases hrest : pairOccurs rest m.sender_id m.label
      · have hqrest : pairQual rest m.sender_id m.label = false := by
          cases hq2 : pairQual rest m.sender_id m.label
          · rfl
          · rw [pairQual_imp_pairOccurs rest m.sender_id m.label hq2] at hrest
            exact absurd hrest (by simp)
        simp [hqrest]
      · simp [Bool.or_assoc]
    · have hne := pairVal_tallyStep_ne acc m x a hm
      have hfalse : (decide (m.sender_id = x) && decide (m.label = a)) = false := by
        rcases not_and_or.mp hm with h | h <;> simp [h]
      have hocc : pairOccurs (m :: rest) x a = pairOccurs rest x a := by
        simp [pairOccurs, List.any_cons, hfalse]
      have hq : pairQual (m :: rest) x a = pairQual rest x a := by
        simp only [pairQual, List.any_cons, hfalse, Bool.false_and, Bool.false_or]
      rw [hne, hocc, hq]

theorem pairVal_initialTally (msgs : List Msg) (x : Nat) (a : String) :
    pairVal (initialTally msgs) x a =
      if pairOccurs msgs x a then some (pairQual msgs x a) else none := by
  unfold initialTally
  rw [pairVal_foldl msgs [] x a]
  have h0 : pairVal [] x a = none := rfl
  rw [h0]
  simp

theorem alookup_foldl_isSome (msgs : List Msg) :
    ∀ (acc : List (Nat × List (String × Bool))) (x : Nat),
      (alookup (msgs.foldl tallyStep acc) x).isSome =
        ((alookup acc x).isSome || msgs.any (fun m => decide (m.sender_id = x))) := by
  induction msgs with
  | nil => intro acc x; simp
  | cons m rest ih =>
    intro acc x
    rw [List.foldl_cons, ih]
    by_cases h : m.sender_id = x
    · subst h
      simp [tallyStep, alookup_senderUpdate_self, List.any_cons]
    · have heq : alookup (tallyStep acc m) x = alookup acc x :=
        alookup_senderUpdate_ne acc m.sender_id x m.label (m.on_time && m.valid)
          (fun e => h e.symm)
      simp [heq, List.any_cons, h]

theorem initialTally_nodup (msgs : List Msg) :
    ((initialTally msgs).map Prod.fst).Nodup ∧
      ∀ p ∈ initialTally msgs, (p.2.map Prod.fst).Nodup := by
  suffices h : ∀ acc : List (Nat × List (String × Bool)),
      (acc.map Prod.fst).Nodup → (∀ p ∈ acc, (p.2.map Prod.fst).Nodup) →
      (((msgs.foldl tallyStep acc).map Prod.fst).Nodup ∧
        ∀ p ∈ msgs.foldl tallyStep acc, (p.2.map Prod.fst).Nodup) by
    exact h [] (by simp) (by simp)
  induction msgs with
  | nil => intro acc h1 h2; exact ⟨h1, h2⟩
  | cons m rest ih =>
    intro acc h1 h2
    rw [List.foldl_cons]
    exact ih (tallyStep acc m)
      (senderUpdate_keys_nodup acc m.sender_id m.label _ h1)
      (senderUpdate_inner_nodup acc m.sender_id m.label _ h2)

theorem alookup_do_tally (msgs : List Msg) (x : Nat) :
    alookup (do_tally msgs) x = (alookup (initialTally msgs) x).map consolidate := by
  unfold do_tally
  generalize initialTally msgs = l
  induction l with
  | nil => rfl
  | cons p rest ih =>
    obtain ⟨k, inner⟩ := p
    by_cases h : k = x <;> simp [alookup, h, ih]

theorem mem_consolidate_credit (inner : List (String × Bool)) (a : String) :
    a ∈ (consolidate inner).credit ↔ (a, true) ∈ inner := by
  simp only [consolidate, List.mem_map, List.mem_filter]
  constructor
  · rintro ⟨⟨x, y⟩, ⟨hm, hy⟩, hx⟩
    simp only at hx hy
    subst hx
    cases y
    · simp at hy
    · exact hm
  · intro h
    exact ⟨(a, true), ⟨h, rfl⟩, rfl⟩

theorem mem_consolidate_no_credit (inner : List (String × Bool)) (a : String) :
    a ∈ (consolidate inner).no_credit ↔ (a, false) ∈ inner := by
  simp only [consolidate, List.mem_map, List.mem_filter]
  constructor
  · rintro ⟨⟨x, y⟩, ⟨hm, hy⟩, hx⟩
    simp only at hx hy
    subst hx
    cases y
    · exact hm
    · simp at hy
  · intro h
    exact ⟨(a, false), ⟨h, rfl⟩, rfl⟩

theorem alookup_initialTally_isSome (msgs : List Msg) (x : Nat) :
    (alookup (initialTally msgs) x).isSome = true ↔ ∃ m ∈ msgs, m.sender_id = x := by
  unfold initialTally
  rw [alookup_foldl_isSome msgs [] x]
  simp [List.any_eq_true, alookup]

theorem pairVal_eq_alookup (msgs : List Msg) (x : Nat)
    (inner : List (String × Bool)) (hT : alookup (initialTally msgs) x = some inner)
    (a : String) : pairVal (initialTally msgs) x a = alookup inner a := by
  unfold pairVal
  rw [hT, Option.getD_some]

theorem credit_char (msgs : List Msg) (x : Nat) (a : String) :
    a ∈ (tallyOf (do_tally msgs) x).credit ↔
      ∃ m ∈ msgs, m.sender_id = x ∧ m.label = a ∧ m.on_time = true ∧ m.valid = true := by
  rw [← pairQual_iff]
  unfold tallyOf
  rw [alookup_do_tally]
  cases hT : alookup (initialTally msgs) x with
  | none =>
    simp only [Option.map_none', Option.getD_none]
    constructor
    · intro h
      simp [consolidate] at h
    · intro hq
      have hocc := pairQual_imp_pairOccurs msgs x a hq
      have h2 : (alookup (initialTally msgs) x).isSome = true := by
        rw [alookup_initialTally_isSome]
        obtain ⟨m, hm, h1, _⟩ := (pairOccurs_iff msgs x a).mp hocc
        exact ⟨m, hm, h1⟩
      rw [hT] at h2
      simp at h2
  | some inner =>
    have hmem := alookup_eq_some_mem _ _ _ hT
    have hnd : (inner.map Prod.fst).Nodup := (initialTally_nodup msgs).2 _ hmem
    simp only [Option.map_some', Option.getD_some]
    rw [mem_consolidate_credit]
    constructor
    · intro h
      have hl := mem_alookup_of_nodup inner a true hnd h
      have hpv : pairVal (initialTally msgs) x a = some true := by
        rw [pairVal_eq_alookup msgs x inner hT a, hl]
      rw [pairVal_initialTally] at hpv
      by_cases hocc : pairOccurs msgs x a = true
      · rw [if_pos hocc] at hpv
        exact Option.some.inj hpv
      · rw [if_neg hocc] at hpv
        exact absurd hpv (by simp)
    · intro hq
      have hocc := pairQual_imp_pairOccurs msgs x a hq
      have hpv : pairVal (initialTally msgs) x a = some true := by
        rw [pairVal_initialTally, if_pos hocc, hq]
      rw [pairVal_eq_alookup msgs x inner hT a] at hpv
      exact alookup_eq_some_mem _ _ _ hpv

theorem no_credit_char (msgs : List Msg) (x : Nat) (a : String) :
    a ∈ (tallyOf (do_tally msgs) x).no_credit ↔
      pairOccurs msgs x a = true ∧ pairQual msgs x a = false := by
  unfold tallyOf
  rw [alookup_do_tally]
  cases hT : alookup (initialTally msgs) x with
  | none =>
    simp only [Option.map_none', Option.getD_none]
    constructor
    · intro h
      simp [consolidate] at h
    · rintro ⟨hocc, -⟩
      have h2 : (alookup (initialTally msgs) x).isSome = true := by
        rw [alookup_initialTally_isSome]
        obtain ⟨m, hm, h1, _⟩ := (pairOccurs_iff msgs x a).mp hocc
        exact ⟨m, hm, h1⟩
      rw [hT] at h2
      simp at h2
  | some inner =>
    have hmem := alookup_eq_some_mem _ _ _ hT
    have hnd : (inner.map Prod.fst).Nodup := (initialTally_nodup msgs).2 _ hmem
    simp only [Option.map_some', Option.getD_some]
    rw [mem_consolidate_no_credit]
    constructor
    · intro h
      have hl := mem_alookup_of_nodup inner a false hnd h
      have hpv : pairVal (initialTally msgs) x a = some false := by
        rw [pairVal_eq_alookup msgs x inner hT a, hl]
      rw [pairVal_initialTally] at hpv
      by_cases hocc : pairOccurs msgs x a = true
      · rw [if_pos hocc] at hpv
        exact ⟨hocc, (Option.some.inj hpv).symm ▸ rfl⟩
      · rw [if_neg hocc] at hpv
        exact absurd hpv (by simp)
    · rintro ⟨hocc, hq⟩
      have hpv : pairVal (initialTally msgs) x a = some false := by
        rw [pairVal_initialTally, if_pos hocc, hq]
      rw [pairVal_eq_alookup msgs x inner hT a] at hpv
      exact alookup_eq_some_mem _ _ _ hpv

theorem any_eq_of_perm {l1 l2 : List Msg} (h : l1.Perm l2) (p : Msg → Bool) :
    l1.any p = l2.any p := by
  cases h2 : l2.any p
  · cases h1 : l1.any p
    · rfl
    · obtain ⟨m, hm, hpm⟩ := List.any_eq_true.mp h1
      have h3 : l2.any p = true := List.any_eq_true.mpr ⟨m, h.mem_iff.mp hm, hpm⟩
      rw [h3] at h2
      exact absurd h2 (by simp)
  · obtain ⟨m, hm, hpm⟩ := List.any_eq_true.mp h2
    exact List.any_eq_true.mpr ⟨m, h.mem_iff.mpr hm, hpm⟩

/-! ## Helper lemmas about label search and creation -/

theorem matchHere_nil : matchHere [] = none := rfl

theorem searchTopic_eq_none_iff (l : List Char) :
    searchTopic l = none ↔ ∀ i, matchHere (l.drop i) = none := by
  induction l with
  | nil =>
    constructor
    · intro _ i
      rw [List.drop_nil]
      rfl
    · intro _
      rfl
  | cons c rest ih =>
    simp only [searchTopic]
    cases hm : matchHere (c :: rest) with
    | some t =>
      constructor
      · intro h
        exact absurd h (by simp)
      · intro h
        have h0 := h 0
        rw [List.drop_zero, hm] at h0
        exact absurd h0 (by simp)
    | none =>
      rw [ih]
      constructor
      · intro h i
        cases i with
        | zero => simpa using hm
        | succ n => simpa using h n
      · intro h n
        simpa using h (n + 1)

theorem searchTopic_eq_some_iff (l : List Char) (t : String × String × String) :
    searchTopic l = some t ↔
      ∃ i, matchHere (l.drop i) = some t ∧ ∀ j < i, matchHere (l.drop j) = none := by
  induction l with
  | nil =>
    constructor
    · intro h
      exact absurd h (by simp [searchTopic])
    · rintro ⟨i, hi, -⟩
      rw [List.drop_nil] at hi
      exact absurd hi (by simp [matchHere])
  | cons c rest ih =>
    simp only [searchTopic]
    cases hm : matchHere (c :: rest) with
    | some t0 =>
      constructor
      · intro h
        refine ⟨0, ?_, fun j hj => absurd hj (by omega)⟩
        rw [List.drop_zero, hm]
        exact h
      · rintro ⟨i, hi, hlt⟩
        cases i with
        | zero =>
          rw [List.drop_zero, hm] at hi
          exact hi
        | succ n =>
          have h0 := hlt 0 (Nat.succ_pos n)
          rw [List.drop_zero, hm] at h0
          exact absurd h0 (by simp)
    | none =>
      rw [ih]
      constructor
      · rintro ⟨i, hi, hlt⟩
        refine ⟨i + 1, by simpa using hi, fun j hj => ?_⟩
        cases j with
        | zero => simpa using hm
        | succ n => simpa using hlt n (by omega)
      · rintro ⟨i, hi, hlt⟩
        cases i with
        | zero =>
          rw [List.drop_zero, hm] at hi
          exact absurd hi (by simp)
        | succ n =>
          refine ⟨n, by simpa using hi, fun j hj => ?_⟩
          simpa using hlt (j + 1) (by omega)

theorem readWeekday_weekday (l : List Char) (c : String) (rest : List Char)
    (h : readWeekday l = some (c, rest)) : (days_of_week c).isSome = true := by
  unfold readWeekday at h
  split at h <;>
    first
      | (injection h with h1
         cases h1
         decide)
      | exact Option.noConfusion h

theorem matchHere_weekday (l : List Char) (a b c : String)
    (h : matchHere l = some (a, b, c)) : (days_of_week c).isSome = true := by
  unfold matchHere at h
  split at h
  · split at h
    · exact absurd h (by simp)
    · split at h
      · exact absurd h (by simp)
      · rename_i c0 rest2 heq
        split at h
        · injection h with h1
          cases h1
          exact readWeekday_weekday _ _ _ heq
        · exact absurd h (by simp)
  · exact absurd h (by simp)

theorem create_label_isSome (cfg : SchemeConfig) (a b c : String)
    (hc : (days_of_week c).isSome = true) :
    (create_label cfg a b c).isSome = true ↔
      a ∉ cfg.exceptions ∧ natOfDigits b.data ≤ cfg.max_week ∧ c ∈ cfg.due_days := by
  unfold create_label
  by_cases h1 : a ∈ cfg.exceptions
  · simp [h1]
  · by_cases h2 : natOfDigits b.data > cfg.max_week
    · simp only [if_neg h1, if_pos h2, Option.isSome_none]
      constructor
      · intro h
        exact absurd h (by simp)
      · rintro ⟨-, hle, -⟩
        omega
    · by_cases h3 : c ∈ cfg.due_days
      · simp only [if_neg h1, if_neg h2, if_neg (not_not_intro h3), Option.isSome_map']
        constructor
        · intro _
          exact ⟨h1, by omega, h3⟩
        · intro _
          exact hc
      · simp only [if_neg h1, if_neg h2, if_pos h3, Option.isSome_none]
        constructor
        · intro h
          exact absurd h (by simp)
        · rintro ⟨-, -, hmem⟩
          exact absurd hmem h3

/-! ## Helper lemmas about event ingestion -/

theorem computeValid_eq_false_iff (roleOf : Nat → Nat) (e : String) (rs : List Reaction) :
    computeValid roleOf e rs = false ↔
      ∃ r ∈ rs, r.emoji_name = e ∧ roleOf r.user_id ≤ 300 := by
  induction rs with
  | nil => simp [computeValid]
  | cons r rest ih =>
    simp only [computeValid]
    by_cases h1 : r.emoji_name = e
    · by_cases h2 : roleOf r.user_id ≤ 300
      · simp [h1, h2]
      · simp [h1, h2, ih]
    · simp [h1, ih]

theorem processMessage_valid (cfg : SchemeConfig) (roleOf : Nat → Nat) (e : String)
    (m : RawMsg) (msg : Msg) (hp : processMessage cfg roleOf e m = some msg) :
    msg.valid = computeValid roleOf e m.reactions := by
  unfold processMessage at hp
  split at hp
  · simp at hp
  · split at hp
    · simp at hp
    · split at hp
      · simp at hp
      · injection hp with h
        subst h
        rfl

theorem processMessage_on_time (cfg : SchemeConfig) (roleOf : Nat → Nat) (e : String)
    (m : RawMsg) (msg : Msg) (l : StandardLabel)
    (hp : processMessage cfg roleOf e m = some msg)
    (hl : topic_match cfg m.subject = some l) :
    msg.on_time = decide (m.timestamp ≤ deadline cfg l) := by
  unfold processMessage at hp
  split at hp
  · simp at hp
  · split at hp
    · simp at hp
    · split at hp
      · simp at hp
      · rename_i label heq
        rw [hl] at heq
        injection heq with h2
        subst h2
        injection hp with h
        subst h
        rfl

/-! ## Claims -/

/-- Claim C1, counterexample: under gaps `[2, 3]`, the label of raw week 2
does not get the deadline the spec's formula (one increment per gap value
at most the raw week, so effective week 3) prescribes: the code increments
against the running week value and reaches effective week 4. -/
theorem claim_C1_counterexample :
    deadline ⟨0, 10, ["mon"], [], [2, 3]⟩ ⟨"w2mon", 2, 0⟩ ≠
      (0 : Int) + 86400 * (7 * (effectiveWeekClaimed [2, 3] 2 - 1) + 0)
    ∧ effectiveWeekClaimed [2, 3] 2 = 3
    ∧ deadline ⟨0, 10, ["mon"], [], [2, 3]⟩ ⟨"w2mon", 2, 0⟩ =
      (0 : Int) + 86400 * (7 * (4 - 1) + 0) := by decide

/-- Claim C1, amended: for every term configuration and label, the
deadline computed by `_deadline` equals
`start_instant + 7*(effective_week - 1) days + weekday-index days`, where
the effective week is the raw week number incremented by one for every gap
value that is at most the *running* (already incremented) week value, the
gaps being processed in list order; in particular with gaps `[2, 3]` a raw
week of 2 has effective week 4 (incremented for both gap values). -/
theorem claim_C1 :
    (∀ (cfg : SchemeConfig) (l : StandardLabel),
      deadline cfg l =
        cfg.start + 86400 * (7 * (effectiveWeek cfg.gaps (l.week : Int) - 1) + (l.day : Int)))
    ∧ effectiveWeek [2, 3] 2 = 4 := by
  refine ⟨fun cfg l => ?_, by decide⟩
  unfold deadline
  rw [gapLoop_eq_effectiveWeek]

/-- Claim C2: an ingested event's `valid` flag is false iff at least one
reaction on it carries the configured invalidating emoji and was attached
by a staff user (role level at most 300); in every other case the flag is
true. -/
theorem claim_C2 (cfg : SchemeConfig) (roleOf : Nat → Nat) (e : String)
    (m : RawMsg) (msg : Msg) (hp : processMessage cfg roleOf e m = some msg) :
    (msg.valid = false ↔ ∃ r ∈ m.reactions, r.emoji_name = e ∧ roleOf r.user_id ≤ 300)
    ∧ ((¬ ∃ r ∈ m.reactions, r.emoji_name = e ∧ roleOf r.user_id ≤ 300) →
        msg.valid = true) := by
  have hv := processMessage_valid cfg roleOf e m msg hp
  rw [hv]
  refine ⟨computeValid_eq_false_iff roleOf e m.reactions, fun hne => ?_⟩
  cases hcv : computeValid roleOf e m.reactions with
  | false => exact absurd ((computeValid_eq_false_iff roleOf e m.reactions).mp hcv) hne
  | true => rfl

/-- Witness for claim C2: a concrete event carrying the invalidating
emoji attached by a staff user (role 200) is flagged invalid. -/
theorem claim_C2_witness :
    ((Msg.mk 1 5 "w4mon" "hi" 0 true false).valid = false ↔
      ∃ r ∈ (RawMsg.mk 1 5 "Student" "[w4mon]" "hi" 0 [⟨"x", 1⟩]).reactions,
        r.emoji_name = "x" ∧ (fun n => if n = 1 then 200 else 400) r.user_id ≤ 300)
    ∧ ((¬ ∃ r ∈ (RawMsg.mk 1 5 "Student" "[w4mon]" "hi" 0 [⟨"x", 1⟩]).reactions,
        r.emoji_name = "x" ∧ (fun n => if n = 1 then 200 else 400) r.user_id ≤ 300) →
        (Msg.mk 1 5 "w4mon" "hi" 0 true false).valid = true) :=
  claim_C2 cfg5 (fun n => if n = 1 then 200 else 400) "x"
    (RawMsg.mk 1 5 "Student" "[w4mon]" "hi" 0 [⟨"x", 1⟩])
    (Msg.mk 1 5 "w4mon" "hi" 0 true false) (by decide)

/-- Claim C3: `topic_match` returns a label iff the topic contains a
bracketed substring matching the grammar and the first (leftmost) such
match passes the exclusion checks (week at most `max_week`, weekday among
the due-days, full label string not in the exceptions); in every other
case it returns `none` (the embedding is total, so no exception can be
raised), and the two failure kinds are indistinguishable, both being
`none`.  The search result is always the leftmost position at which the
bracketed pattern matches. -/
theorem claim_C3 (cfg : SchemeConfig) (s : String) :
    ((topic_match cfg s).isSome = true ↔
      ∃ a b c, searchTopic s.data = some (a, b, c)
        ∧ a ∉ cfg.exceptions ∧ natOfDigits b.data ≤ cfg.max_week ∧ c ∈ cfg.due_days)
    ∧ (∀ t, searchTopic s.data = some t →
        ∃ i, matchHere (s.data.drop i) = some t ∧ ∀ j < i, matchHere (s.data.drop j) = none)
    ∧ (searchTopic s.data = none ↔ ∀ i, matchHere (s.data.drop i) = none) := by
  refine ⟨?_, fun t ht => (searchTopic_eq_some_iff s.data t).mp ht,
    searchTopic_eq_none_iff s.data⟩
  unfold topic_match
  cases hs : searchTopic s.data with
  | none =>
    simp
  | some t =>
    obtain ⟨a, b, c⟩ := t
    have hc : (days_of_week c).isSome = true := by
      obtain ⟨i, hi, -⟩ := (searchTopic_eq_some_iff s.data (a, b, c)).mp hs
      exact matchHere_weekday _ _ _ _ hi
    show (create_label cfg a b c).isSome = true ↔ _
    rw [create_label_isSome cfg a b c hc]
    constructor
    · intro h
      exact ⟨a, b, c, rfl, h.1, h.2.1, h.2.2⟩
    · rintro ⟨a2, b2, c2, he, h1, h2, h3⟩
      injection he with he2
      cases he2
      exact ⟨h1, h2, h3⟩

/-- Witness for claim C3: in the topic `a [w1tue] [w4mon]` the leftmost
bracketed match is `w1tue`. -/
theorem claim_C3_witness :
    ∃ i, matchHere (("a [w1tue] [w4mon]" : String).data.drop i) = some ("w1tue", "1", "tue")
      ∧ ∀ j < i, matchHere (("a [w1tue] [w4mon]" : String).data.drop j) = none :=
  (claim_C3 cfg5 "a [w1tue] [w4mon]").2.1 ("w1tue", "1", "tue") (by decide)

/-- Claim C4: for every event list and every `(sender, label)` pair
occurring in it, the label lands in the sender's credit list iff at least
one event of the pair is both on time and valid (an OR over all events of
the pair), and if no event of the pair qualifies the label lands in the
sender's no-credit list. -/
theorem claim_C4 (msgs : List Msg) (x : Nat) (a : String)
    (hocc : ∃ m ∈ msgs, m.sender_id = x ∧ m.label = a) :
    (a ∈ (tallyOf (do_tally msgs) x).credit ↔
      ∃ m ∈ msgs, m.sender_id = x ∧ m.label = a ∧ m.on_time = true ∧ m.valid = true)
    ∧ ((¬ ∃ m ∈ msgs, m.sender_id = x ∧ m.label = a ∧ m.on_time = true ∧ m.valid = true) →
        a ∈ (tallyOf (do_tally msgs) x).no_credit) := by
  refine ⟨credit_char msgs x a, fun hn => ?_⟩
  rw [no_credit_char]
  refine ⟨(pairOccurs_iff msgs x a).mpr hocc, ?_⟩
  cases hq : pairQual msgs x a
  · rfl
  · exact absurd ((pairQual_iff msgs x a).mp hq) hn

/-- Witness for claim C4: the spec's example pair with qualifying pattern
`[false, true, false]` (sender 7, label `w2wed`). -/
theorem claim_C4_witness :
    ("w2wed" ∈ (tallyOf (do_tally
        [Msg.mk 1 7 "w2wed" "c" 0 false true, Msg.mk 2 7 "w2wed" "c" 0 true true,
          Msg.mk 3 7 "w2wed" "c" 0 false true]) 7).credit ↔
      ∃ m ∈ [Msg.mk 1 7 "w2wed" "c" 0 false true, Msg.mk 2 7 "w2wed" "c" 0 true true,
          Msg.mk 3 7 "w2wed" "c" 0 false true],
        m.sender_id = 7 ∧ m.label = "w2wed" ∧ m.on_time = true ∧ m.valid = true)
    ∧ ((¬ ∃ m ∈ [Msg.mk 1 7 "w2wed" "c" 0 false true, Msg.mk 2 7 "w2wed" "c" 0 true true,
          Msg.mk 3 7 "w2wed" "c" 0 false true],
        m.sender_id = 7 ∧ m.label = "w2wed" ∧ m.on_time = true ∧ m.valid = true) →
        "w2wed" ∈ (tallyOf (do_tally
          [Msg.mk 1 7 "w2wed" "c" 0 false true, Msg.mk 2 7 "w2wed" "c" 0 true true,
            Msg.mk 3 7 "w2wed" "c" 0 false true]) 7).no_credit) :=
  claim_C4
    [Msg.mk 1 7 "w2wed" "c" 0 false true, Msg.mk 2 7 "w2wed" "c" 0 true true,
      Msg.mk 3 7 "w2wed" "c" 0 false true] 7 "w2wed"
    ⟨Msg.mk 1 7 "w2wed" "c" 0 false true, by simp, rfl, rfl⟩

/-- Claim C5: under the scenario configuration (start 2023-01-02, due hour
23, max week 10, due-days mon/wed/fri, gaps `[3]`, no exceptions) the
label `w4mon` resolves, its deadline is 2023-01-30T23:00 (effective week
5), an event at 2023-01-30T22:00 is flagged on time and an event at
2023-01-31T00:00 is flagged late. -/
theorem claim_C5 :
    topic_match cfg5 "[w4mon]" = some ⟨"w4mon", 4, 0⟩
    ∧ deadline cfg5 ⟨"w4mon", 4, 0⟩ = epochSeconds 2023 1 30 23
    ∧ gapLoop cfg5.gaps 4 = 5
    ∧ (processMessage cfg5 roleStudent "x"
        ⟨1, 5, "Student", "[w4mon]", "hi", epochSeconds 2023 1 30 22, []⟩).map Msg.on_time
      = some true
    ∧ (processMessage cfg5 roleStudent "x"
        ⟨2, 5, "Student", "[w4mon]", "hi", epochSeconds 2023 1 31 0, []⟩).map Msg.on_time
      = some false := by
  decide

/-- Claim C6: for every ingested event whose topic resolved to a label,
the `on_time` flag is the non-strict comparison
`timestamp <= deadline_of(label)`: a timestamp equal to the deadline is
flagged on time and a timestamp one second after it is flagged late. -/
theorem claim_C6 (cfg : SchemeConfig) (roleOf : Nat → Nat) (e : String)
    (m : RawMsg) (msg : Msg) (l : StandardLabel)
    (hp : processMessage cfg roleOf e m = some msg)
    (hl : topic_match cfg m.subject = some l) :
    (msg.on_time = true ↔ m.timestamp ≤ deadline cfg l)
    ∧ (m.timestamp = deadline cfg l → msg.on_time = true)
    ∧ (m.timestamp = deadline cfg l + 1 → msg.on_time = false) := by
  have ho := processMessage_on_time cfg roleOf e m msg l hp hl
  rw [ho]
  refine ⟨decide_eq_true_iff, fun h => ?_, fun h => ?_⟩
  · rw [h]; simp
  · rw [h]
    simp only [decide_eq_false_iff_not]
    omega

/-- Witness for claim C6: a concrete event timestamped exactly at the
`w4mon` deadline of the scenario configuration. -/
theorem claim_C6_witness :
    ((Msg.mk 1 5 "w4mon" "hi" (epochSeconds 2023 1 30 23) true true).on_time = true ↔
      (RawMsg.mk 1 5 "Student" "[w4mon]" "hi" (epochSeconds 2023 1 30 23) []).timestamp ≤
        deadline cfg5 ⟨"w4mon", 4, 0⟩)
    ∧ ((RawMsg.mk 1 5 "Student" "[w4mon]" "hi" (epochSeconds 2023 1 30 23) []).timestamp =
        deadline cfg5 ⟨"w4mon", 4, 0⟩ →
        (Msg.mk 1 5 "w4mon" "hi" (epochSeconds 2023 1 30 23) true true).on_time = true)
    ∧ ((RawMsg.mk 1 5 "Student" "[w4mon]" "hi" (epochSeconds 2023 1 30 23) []).timestamp =
        deadline cfg5 ⟨"w4mon", 4, 0⟩ + 1 →
        (Msg.mk 1 5 "w4mon" "hi" (epochSeconds 2023 1 30 23) true true).on_time = false) :=
  claim_C6 cfg5 roleStudent "x"
    (RawMsg.mk 1 5 "Student" "[w4mon]" "hi" (epochSeconds 2023 1 30 23) [])
    (Msg.mk 1 5 "w4mon" "hi" (epochSeconds 2023 1 30 23) true true)
    ⟨"w4mon", 4, 0⟩ (by decide) (by decide)

/-- Claim C7: for every configuration and any two labels with the same
weekday and strictly increasing week numbers, the first deadline is
strictly earlier than the second, regardless of the gaps list. -/
theorem claim_C7 (cfg : SchemeConfig) (l1 l2 : StandardLabel)
    (hday : l1.day = l2.day) (hweek : l1.week < l2.week) :
    deadline cfg l1 < deadline cfg l2 := by
  unfold deadline
  have h := gapLoop_lt cfg.gaps (l1.week : Int) (l2.week : Int) (by exact_mod_cast hweek)
  rw [hday]
  omega

/-- Witness for claim C7 at the scenario configuration and the labels
`w1mon` and `w2mon`. -/
theorem claim_C7_witness :
    (⟨"w1mon", 1, 0⟩ : StandardLabel).day = (⟨"w2mon", 2, 0⟩ : StandardLabel).day
    ∧ (⟨"w1mon", 1, 0⟩ : StandardLabel).week < (⟨"w2mon", 2, 0⟩ : StandardLabel).week
    ∧ deadline cfg5 ⟨"w1mon", 1, 0⟩ < deadline cfg5 ⟨"w2mon", 2, 0⟩ :=
  ⟨rfl, by decide, claim_C7 cfg5 ⟨"w1mon", 1, 0⟩ ⟨"w2mon", 2, 0⟩ rfl (by decide)⟩

/-- Claim C8: aggregation is order-insensitive: for any two event lists
that are permutations of each other, every sender has the same credit set
and the same no-credit set (membership of labels), because the per-pair
reduction is an OR over the multiset of events of the pair. -/
theorem claim_C8 (msgs1 msgs2 : List Msg) (hperm : msgs1.Perm msgs2)
    (x : Nat) (a : String) :
    (a ∈ (tallyOf (do_tally msgs1) x).credit ↔ a ∈ (tallyOf (do_tally msgs2) x).credit)
    ∧ (a ∈ (tallyOf (do_tally msgs1) x).no_credit ↔
        a ∈ (tallyOf (do_tally msgs2) x).no_credit) := by
  constructor
  · rw [credit_char, credit_char]
    constructor
    · rintro ⟨m, hm, h⟩
      exact ⟨m, hperm.mem_iff.mp hm, h⟩
    · rintro ⟨m, hm, h⟩
      exact ⟨m, hperm.mem_iff.mpr hm, h⟩
  · rw [no_credit_char, no_credit_char]
    have h1 : pairOccurs msgs1 x a = pairOccurs msgs2 x a := any_eq_of_perm hperm _
    have h2 : pairQual msgs1 x a = pairQual msgs2 x a := any_eq_of_perm hperm _
    rw [h1, h2]

/-- Witness for claim C8: swapping a two-event list (only the second event
qualifies) leaves sender 7's credit and no-credit membership unchanged. -/
theorem claim_C8_witness :
    ("w2wed" ∈ (tallyOf (do_tally
        [Msg.mk 1 7 "w2wed" "c" 0 false true, Msg.mk 2 7 "w2wed" "c" 0 true true]) 7).credit ↔
      "w2wed" ∈ (tallyOf (do_tally
        [Msg.mk 2 7 "w2wed" "c" 0 true true, Msg.mk 1 7 "w2wed" "c" 0 false true]) 7).credit)
    ∧ ("w2wed" ∈ (tallyOf (do_tally
        [Msg.mk 1 7 "w2wed" "c" 0 false true, Msg.mk 2 7 "w2wed" "c" 0 true true]) 7).no_credit ↔
      "w2wed" ∈ (tallyOf (do_tally
        [Msg.mk 2 7 "w2wed" "c" 0 true true, Msg.mk 1 7 "w2wed" "c" 0 false true]) 7).no_credit) :=
  claim_C8
    [Msg.mk 1 7 "w2wed" "c" 0 false true, Msg.mk 2 7 "w2wed" "c" 0 true true]
    [Msg.mk 2 7 "w2wed" "c" 0 true true, Msg.mk 1 7 "w2wed" "c" 0 false true]
    (List.Perm.swap (Msg.mk 2 7 "w2wed" "c" 0 true true)
      (Msg.mk 1 7 "w2wed" "c" 0 false true) []) 7 "w2wed"

/-- Claim C9: tally partition invariant: the keys of `do_tally`'s result
are exactly (and without repetition) the sender ids occurring in the
events, and for each sender the credit and no-credit lists are disjoint
and together contain exactly the distinct labels of that sender's events,
each exactly once. -/
theorem claim_C9 (msgs : List Msg) :
    ((do_tally msgs).map Prod.fst).Nodup
    ∧ (∀ x, (alookup (do_tally msgs) x).isSome = true ↔ ∃ m ∈ msgs, m.sender_id = x)
    ∧ ∀ x t, alookup (do_tally msgs) x = some t →
        (t.credit ++ t.no_credit).Nodup
        ∧ (∀ a, a ∈ t.credit ++ t.no_credit ↔ ∃ m ∈ msgs, m.sender_id = x ∧ m.label = a)
        ∧ ∀ a, a ∈ t.credit → a ∉ t.no_credit := by
  obtain ⟨hnd_out, hnd_in⟩ := initialTally_nodup msgs
  refine ⟨?_, ?_, ?_⟩
  · have hkeys : (do_tally msgs).map Prod.fst = (initialTally msgs).map Prod.fst := by
      unfold do_tally
      rw [List.map_map]
      rfl
    rw [hkeys]
    exact hnd_out
  · intro x
    rw [alookup_do_tally, ← alookup_initialTally_isSome msgs x]
    cases alookup (initialTally msgs) x <;> simp
  · intro x t ht
    rw [alookup_do_tally] at ht
    obtain ⟨inner, hT, hcons⟩ := Option.map_eq_some'.mp ht
    have hmem := alookup_eq_some_mem _ _ _ hT
    have hnd : (inner.map Prod.fst).Nodup := hnd_in _ hmem
    have hdisj : ∀ a, a ∈ (consolidate inner).credit → a ∉ (consolidate inner).no_credit := by
      intro a hac han
      have e1 := mem_alookup_of_nodup inner a true hnd ((mem_consolidate_credit inner a).mp hac)
      have e2 := mem_alookup_of_nodup inner a false hnd
        ((mem_consolidate_no_credit inner a).mp han)
      rw [e1] at e2
      exact absurd (Option.some.inj e2) (by simp)
    subst hcons
    refine ⟨?_, ?_, hdisj⟩
    · have hc : (consolidate inner).credit.Nodup :=
        hnd.sublist ((List.filter_sublist inner).map Prod.fst)
      have hn : (consolidate inner).no_credit.Nodup :=
        hnd.sublist ((List.filter_sublist inner).map Prod.fst)
      exact List.nodup_append.mpr ⟨hc, hn, fun a hac => hdisj a hac⟩
    · intro a
      rw [List.mem_append, mem_consolidate_credit, mem_consolidate_no_credit]
      constructor
      · rintro (h | h)
        · have hl := mem_alookup_of_nodup inner a true hnd h
          have hpv : pairVal (initialTally msgs) x a = some true := by
            rw [pairVal_eq_alookup msgs x inner hT a, hl]
          rw [pairVal_initialTally] at hpv
          by_cases hocc : pairOccurs msgs x a = true
          · exact (pairOccurs_iff msgs x a).mp hocc
          · rw [if_neg hocc] at hpv
            exact absurd hpv (by simp)
        · have hl := mem_alookup_of_nodup inner a false hnd h
          have hpv : pairVal (initialTally msgs) x a = some false := by
            rw [pairVal_eq_alookup msgs x inner hT a, hl]
          rw [pairVal_initialTally] at hpv
          by_cases hocc : pairOccurs msgs x a = true
          · exact (pairOccurs_iff msgs x a).mp hocc
          · rw [if_neg hocc] at hpv
            exact absurd hpv (by simp)
      · intro hex
        have hocc : pairOccurs msgs x a = true := (pairOccurs_iff msgs x a).mpr hex
        have hpv : pairVal (initialTally msgs) x a = some (pairQual msgs x a) := by
          rw [pairVal_initialTally, if_pos hocc]
        rw [pairVal_eq_alookup msgs x inner hT a] at hpv
        cases hq : pairQual msgs x a
        · right
          rw [hq] at hpv
          exact alookup_eq_some_mem _ _ _ hpv
        · left
          rw [hq] at hpv
          exact alookup_eq_some_mem _ _ _ hpv

/-- Witness for claim C9: the single-event list for sender 7 and label
`w2wed` yields the tally entry with that label credited exactly once. -/
theorem claim_C9_witness :
    ((Tally.mk ["w2wed"] []).credit ++ (Tally.mk ["w2wed"] []).no_credit).Nodup
    ∧ (∀ a, a ∈ (Tally.mk ["w2wed"] []).credit ++ (Tally.mk ["w2wed"] []).no_credit ↔
        ∃ m ∈ [Msg.mk 1 7 "w2wed" "c" 0 true true], m.sender_id = 7 ∧ m.label = a)
    ∧ ∀ a, a ∈ (Tally.mk ["w2wed"] []).credit → a ∉ (Tally.mk ["w2wed"] []).no_credit :=
  (claim_C9 [Msg.mk 1 7 "w2wed" "c" 0 true true]).2.2 7 (Tally.mk ["w2wed"] []) (by decide)

/-- Claim C10: the deadline computation is sensitive to the order of the
gaps list: two configurations identical except for the order of their
gaps lists (here `[2, 4]` versus `[4, 2]`) assign different deadlines to
the label `w3mon`, because each gap is compared against the running,
already-incremented week value in list order. -/
theorem claim_C10 :
    ∃ (c1 c2 : SchemeConfig) (l : StandardLabel),
      List.Perm c1.gaps c2.gaps ∧ c1.start = c2.start ∧ c1.max_week = c2.max_week
      ∧ c1.due_days = c2.due_days ∧ c1.exceptions = c2.exceptions
      ∧ deadline c1 l ≠ deadline c2 l :=
  ⟨⟨0, 10, ["mon"], [], [2, 4]⟩, ⟨0, 10, ["mon"], [], [4, 2]⟩, ⟨"w3mon", 3, 0⟩,
    List.Perm.swap 4 2 [], rfl, rfl, rfl, rfl, by decide⟩

end Tallybot
